import Mathlib

/-!
Verification development for the Thumbnail Text Compositing Engine
(`backend/services/text_overlay.py`, class `TextOverlayService`).

The Python service is shallowly embedded here:

* Images are width × height grids of RGBA pixels (`Img`), pixel channels as
  naturals; `Image.alpha_composite` and `convert("RGB")` are modelled
  pixelwise.
* Pillow's glyph primitives (`ImageFont.truetype`, `textbbox`, `draw.text`,
  `draw.multiline_text`) are external C code; they are abstracted as a
  record of rendering primitives (`RenderPrims`), and theorems that depend
  on a property of a primitive (for example, drawing the empty string paints
  nothing) take that property as an explicit hypothesis.
* CPython evaluates the arithmetic in `add_text` / `add_gradient_background`
  in IEEE-754 binary64.  Where the code truncates a float product with
  `int(...)` the exact result depends on the rounding of the product, so we
  model binary64 exactly: `rne53 q` is the correctly rounded (round to
  nearest, ties to even, 53-bit significand) value of a positive rational,
  and the decimal literals `0.12`, `0.8`, `0.7`, `0.9`, `0.35` appearing in
  the source are embedded as the exact dyadic rationals that those Python
  float literals denote.  (Exponent range is unbounded in this model;
  overflow/subnormal behaviour is irrelevant at the magnitudes the service
  touches.)
-/

/-! ### Exact model of CPython binary64 arithmetic -/

/-- Fuel-driven binary logarithm on naturals (structural recursion so the
kernel can evaluate it; with `fuel ≥ n` it is `⌊log₂ n⌋`). -/
def log2Fuel : ℕ → ℕ → ℕ
  | 0, _ => 0
  | fuel + 1, n => if 2 ≤ n then log2Fuel fuel (n / 2) + 1 else 0

/-- Computes `⌊log₂ n⌋` for `n ≥ 1` (0 at 0). -/
def natLog2 (n : ℕ) : ℕ := log2Fuel n n

/-- Computes `⌊log₂ q⌋` for a positive rational, via `natLog2` on numerator and
denominator plus one correcting comparison. -/
def floorLog2 (q : ℚ) : ℤ :=
  let l : ℤ := (natLog2 q.num.toNat : ℤ) - (natLog2 q.den : ℤ)
  if (2 : ℚ) ^ l ≤ q then l else l - 1

/-- Round a rational to the nearest integer, ties to even. -/
def roundHalfEven (x : ℚ) : ℤ :=
  let f := ⌊x⌋
  let r := x - f
  if r < 1 / 2 then f
  else if 1 / 2 < r then f + 1
  else if f % 2 = 0 then f else f + 1

/-- Correctly rounded binary64 value (round to nearest, ties to even,
53-bit significand) of a rational; nonpositive inputs map to `0` (the
service only rounds positive quantities). -/
def rne53 (q : ℚ) : ℚ :=
  if q ≤ 0 then 0
  else
    let e : ℤ := floorLog2 q - 52
    (roundHalfEven (q * (2 : ℚ) ^ (-e)) : ℚ) * (2 : ℚ) ^ e

/-- Model of the Python expression `int(b * c)` for a nonnegative int `b`
and a float constant `c` (given as the exact dyadic rational the float
denotes): the product is rounded to binary64, then truncated toward zero
(= floored, as all uses are nonnegative). -/
def pyTruncMul (c : ℚ) (b : ℤ) : ℤ :=
  ⌊rne53 ((b : ℚ) * c)⌋

/-- Exact value of the Python float literal `0.12`. -/
def fl012 : ℚ := 1080863910568919 / 9007199254740992

/-- Exact value of the Python float literal `0.8`. -/
def fl08 : ℚ := 3602879701896397 / 4503599627370496

/-- Exact value of the Python float literal `0.7`. -/
def fl07 : ℚ := 3152519739159347 / 4503599627370496

/-- Exact value of the Python float literal `0.9` (the default
`max_width_ratio`). -/
def fl09 : ℚ := 8106479329266893 / 9007199254740992

/-- Exact value of the Python float literal `0.35`. -/
def fl035 : ℚ := 3152519739159347 / 9007199254740992

/-- Model of Python `int()` truncation toward zero on an exact rational. -/
def pyIntQ (q : ℚ) : ℤ :=
  if 0 ≤ q then ⌊q⌋ else -⌊-q⌋

/-! ### Pixels and images -/

/-- One RGBA pixel; channel values are naturals (0–255 in all reachable
states). -/
structure RGBA where
  r : ℕ
  g : ℕ
  b : ℕ
  a : ℕ
deriving DecidableEq, Repr

/-- A raster image: dimensions plus a total pixel function (Pillow raises
on out-of-bounds access; the claims never leave bounds, so the function is
total). -/
structure Img where
  width : ℕ
  height : ℕ
  px : ℕ → ℕ → RGBA

/-- Models `Image.new("RGBA", (w, h), (0, 0, 0, 0))`. -/
def transparentImg (w h : ℕ) : Img :=
  ⟨w, h, fun _ _ => ⟨0, 0, 0, 0⟩⟩

/-- Models `img.putpixel((x, y), c)`. -/
def putpixel (im : Img) (x y : ℕ) (c : RGBA) : Img :=
  { im with px := fun a b => if a = x ∧ b = y then c else im.px a b }

/-- One pixel of `Image.alpha_composite base over` (Porter–Duff "over" on
straight alpha).  A fully transparent overlay pixel leaves the base pixel
bit-identical, as in Pillow's compositor; the sub-pixel rounding of the
blended branch is a model (no claim depends on it). -/
def alphaCompositePx (b o : RGBA) : RGBA :=
  if o.a = 0 then b
  else
    let outA255 := o.a * 255 + b.a * (255 - o.a)
    let mix := fun (cb co : ℕ) => (co * o.a * 255 + cb * b.a * (255 - o.a)) / outA255
    ⟨mix b.r o.r, mix b.g o.g, mix b.b o.b, outA255 / 255⟩

/-- Models `Image.alpha_composite base over` (requires equal sizes in Pillow; the
result carries the base's dimensions). -/
def alphaComposite (base over : Img) : Img :=
  ⟨base.width, base.height, fun x y => alphaCompositePx (base.px x y) (over.px x y)⟩

/-- Models `img.convert("RGB")`: drop the alpha channel (flatten to an opaque
3-channel raster, represented with alpha pinned to 255). -/
def convertRGB (im : Img) : Img :=
  ⟨im.width, im.height, fun x y =>
    let p := im.px x y
    ⟨p.r, p.g, p.b, 255⟩⟩

/-! ### Registries (`FONT_PRESETS`, `COLOR_PRESETS`, `POSITION_PRESETS`) -/

/-- One entry of `FONT_PRESETS`. -/
structure FontPreset where
  family : String
  fallbacks : List String
  weight : String
deriving DecidableEq, Repr

/-- Models `FONT_PRESETS`. -/
def FONT_PRESETS : List (String × FontPreset) :=
  [("impact", ⟨"Impact", ["Arial Black", "Helvetica Bold", "DejaVuSans-Bold"], "bold"⟩),
   ("modern", ⟨"Montserrat", ["Arial", "Helvetica", "DejaVuSans"], "bold"⟩),
   ("dramatic", ⟨"Bebas Neue", ["Impact", "Arial Black", "DejaVuSans-Bold"], "regular"⟩),
   ("clean", ⟨"Roboto", ["Arial", "Helvetica", "DejaVuSans"], "bold"⟩)]

/-- One entry of `COLOR_PRESETS` (hex strings, exactly as in the source). -/
structure ColorScheme where
  fill : String
  stroke : String
  shadow : String
deriving DecidableEq, Repr

/-- The `white_shadow` entry, the documented default scheme. -/
def whiteShadowScheme : ColorScheme := ⟨"#FFFFFF", "#000000", "#000000"⟩

/-- Models `COLOR_PRESETS`. -/
def COLOR_PRESETS : List (String × ColorScheme) :=
  [("white_shadow", whiteShadowScheme),
   ("yellow_pop", ⟨"#FFFF00", "#000000", "#000000"⟩),
   ("red_alert", ⟨"#FF0000", "#FFFFFF", "#000000"⟩),
   ("blue_trust", ⟨"#00BFFF", "#000000", "#000000"⟩),
   ("green_success", ⟨"#00FF00", "#000000", "#000000"⟩)]

/-- The `bottom_center` entry, the documented default position. -/
def bottomCenterPos : ℚ × ℚ := (1 / 2, 85 / 100)

/-- Models `POSITION_PRESETS` (the decimal anchor literals as exact rationals;
no claim depends on their float representation). -/
def POSITION_PRESETS : List (String × (ℚ × ℚ)) :=
  [("top_left", (5 / 100, 1 / 10)),
   ("top_center", (1 / 2, 1 / 10)),
   ("top_right", (95 / 100, 1 / 10)),
   ("center", (1 / 2, 1 / 2)),
   ("bottom_left", (5 / 100, 85 / 100)),
   ("bottom_center", bottomCenterPos),
   ("bottom_right", (95 / 100, 85 / 100))]

/-- Models `COLOR_PRESETS.get(id, COLOR_PRESETS["white_shadow"])`. -/
def lookupColor (id : String) : ColorScheme :=
  (COLOR_PRESETS.lookup id).getD whiteShadowScheme

/-- Models `POSITION_PRESETS.get(id, POSITION_PRESETS["bottom_center"])`. -/
def lookupPosition (id : String) : ℚ × ℚ :=
  (POSITION_PRESETS.lookup id).getD bottomCenterPos

/-- Models `_hex_to_rgb` helper: value of one hex digit (registry values are
always valid hex, so the catch-all branch is unreachable there). -/
def hexDigit (c : Char) : ℕ :=
  if '0' ≤ c ∧ c ≤ '9' then c.toNat - '0'.toNat
  else if 'a' ≤ c ∧ c ≤ 'f' then c.toNat - 'a'.toNat + 10
  else if 'A' ≤ c ∧ c ≤ 'F' then c.toNat - 'A'.toNat + 10
  else 0

/-- Models `_hex_to_rgb`: strip leading `#`, read three two-digit hex pairs. -/
def hexToRgb (s : String) : ℕ × ℕ × ℕ :=
  let cs := s.toList.dropWhile (· = '#')
  let pair := fun (i : ℕ) => 16 * hexDigit (cs.getD i '0') + hexDigit (cs.getD (i + 1) '0')
  (pair 0, pair 2, pair 4)

/-- An RGB triple as an opaque RGBA pixel (Pillow treats a 3-tuple fill on
an RGBA canvas as alpha 255). -/
def rgbOpaque (c : ℕ × ℕ × ℕ) : RGBA := ⟨c.1, c.2.1, c.2.2, 255⟩

/-- An RGB triple plus an explicit alpha (the shadow colour gets `+ (128,)`). -/
def rgbWithAlpha (c : ℕ × ℕ × ℕ) (a : ℕ) : RGBA := ⟨c.1, c.2.1, c.2.2, a⟩

/-! ### Dynamic font sizing (`add_text`, lines 182–190) -/

/-- The dynamic size computed by `add_text` when the caller passes no
explicit `font_size`:
`base_size = int(height * 0.12)`; `if len(text) > 20: base_size =
int(base_size * 0.8)`; `if len(text) > 30: base_size = int(base_size *
0.7)`; `font_size = max(base_size, 24)` — with every `int(...)` modelled
as binary64 multiplication followed by truncation. -/
def dynamicFontSize (height : ℕ) (textLen : ℕ) : ℤ :=
  let b0 := pyTruncMul fl012 (height : ℤ)
  let b1 := if 20 < textLen then pyTruncMul fl08 b0 else b0
  let b2 := if 30 < textLen then pyTruncMul fl07 b1 else b1
  max b2 24

/-! ### Text wrapping (`_wrap_text`) -/

/-- Models `" ".join(ws)`. -/
def joinSpace (ws : List String) : String :=
  String.intercalate " " ws

/-- Whitespace as recognised by Python `str.split()` (the characters the
service's texts can contain). -/
def isSpaceChar (c : Char) : Bool :=
  c = ' ' ∨ c = '\t' ∨ c = '\n' ∨ c = '\r'

/-- Accumulator pass behind `pySplit`; `cur` holds the current word
reversed. -/
def splitWsAux : List Char → List Char → List String
  | [], cur => if cur.isEmpty then [] else [String.mk cur.reverse]
  | c :: cs, cur =>
    if isSpaceChar c then
      if cur.isEmpty then splitWsAux cs []
      else String.mk cur.reverse :: splitWsAux cs []
    else splitWsAux cs (c :: cur)

/-- Python `str.split()`: split on whitespace runs, no empty fields. -/
def pySplit (s : String) : List String :=
  splitWsAux s.toList []

/-- The word loop of `_wrap_text`: `cur` is `current_line`, `ws` the
remaining words; `wfn` measures the rendered width of a candidate line
(`draw.textbbox` at the resolved font).  Each produced line is kept as its
word list. -/
def wrapLines (wfn : String → ℕ) (maxW : ℕ) : List String → List String → List (List String)
  | cur, [] => if cur.isEmpty then [] else [cur]
  | cur, word :: rest =>
    if wfn (joinSpace (cur ++ [word])) ≤ maxW then
      wrapLines wfn maxW (cur ++ [word]) rest
    else if cur.isEmpty then
      wrapLines wfn maxW [word] rest
    else
      cur :: wrapLines wfn maxW [word] rest

/-- Models `_wrap_text`: wrap and re-join with explicit line breaks. -/
def wrapText (wfn : String → ℕ) (maxW : ℕ) (text : String) : String :=
  String.intercalate "\n" ((wrapLines wfn maxW [] (pySplit text)).map joinSpace)

/-! ### Placement clamping (`add_text`, lines 225–226) -/

/-- Models `max(10, min(v, dim - box - 10))`: clamp one coordinate of the draw
origin so the bounding box keeps a 10 px margin. -/
def clampCoord (v dim box : ℤ) : ℤ :=
  max 10 (min v (dim - box - 10))

/-! ### Rendering primitives (Pillow, abstracted) -/

/-- The Pillow operations `add_text` calls, abstracted over a font type
`F`.  `loadFile` is "the path exists and `ImageFont.truetype(path, size)`
succeeds"; `loadSystem` is `ImageFont.truetype(name, size)` against system
fonts; `defaultFont` is `ImageFont.load_default()` (never fails);
`measure` is `textbbox`/`multiline_textbbox` width and height of a
(possibly multi-line) string; `drawText`/`drawMultiline` are `draw.text` /
`draw.multiline_text(..., align="center")`. -/
structure RenderPrims (F : Type) where
  loadFile : String → ℤ → Option F
  loadSystem : String → ℤ → Option F
  defaultFont : F
  measure : F → String → ℕ × ℕ
  drawText : Img → ℤ × ℤ → String → F → RGBA → Img
  drawMultiline : Img → ℤ × ℤ → String → F → RGBA → Img

/-! ### Font resolution (`_get_font`) -/

/-- The custom-fonts-directory attempt for one candidate family:
try `dir/name.ttf`, then `dir/name.otf`. -/
def tryCustomDir {F : Type} (p : RenderPrims F) (dir name : String) (size : ℤ) : Option F :=
  match p.loadFile (dir ++ "/" ++ name ++ ".ttf") size with
  | some f => some f
  | none => p.loadFile (dir ++ "/" ++ name ++ ".otf") size

/-- The candidate loop of `_get_font`.  `acc` is the `font` variable.  Note
the source's control flow: a custom-directory success overwrites `font` but
does not break the outer loop, while a system-font success breaks; the
system fonts are only consulted while `font` is still `None`. -/
def getFontLoop {F : Type} (p : RenderPrims F) (dir : String) (size : ℤ) :
    List String → Option F → Option F
  | [], acc => acc
  | name :: rest, acc =>
    match (match tryCustomDir p dir name size with
           | some f => some f
           | none => acc) with
    | some f => getFontLoop p dir size rest (some f)
    | none =>
      match p.loadSystem name size with
      | some f => some f
      | none => getFontLoop p dir size rest none

/-- Models `_get_font` (without the memoising cache, which only reuses results of
this same computation): candidate list, then `DejaVuSans-Bold.ttf`, then
`ImageFont.load_default()`.  Resolution never fails. -/
def getFont {F : Type} (p : RenderPrims F) (dir preset : String) (size : ℤ) : F :=
  let cfg := (FONT_PRESETS.lookup preset).getD
    ⟨"Impact", ["Arial Black", "Helvetica Bold", "DejaVuSans-Bold"], "bold"⟩
  match getFontLoop p dir size (cfg.family :: cfg.fallbacks) none with
  | some f => f
  | none =>
    match p.loadSystem "DejaVuSans-Bold.ttf" size with
    | some f => f
    | none => p.defaultFont

/-! ### The glyph passes and `add_text` -/

/-- Models `draw.multiline_text(...)` when the (wrapped) text contains a line
break, else `draw.text(...)`. -/
def drawPass {F : Type} (p : RenderPrims F) (isMulti : Bool) (t : String) (font : F)
    (im : Img) (pos : ℤ × ℤ) (col : RGBA) : Img :=
  if isMulti then p.drawMultiline im pos t font col else p.drawText im pos t font col

/-- Models `range(-sw, sw + 1)` as a list of integers. -/
def intRange (sw : ℤ) : List ℤ :=
  (List.range (2 * sw + 1).toNat).map (fun i => (i : ℤ) - sw)

/-- The filled-disc stroke neighbourhood: all integer offsets `(dx, dy)`
with `dx² + dy² ≤ sw²`, in the source's iteration order. -/
def strokeOffsets (sw : ℤ) : List (ℤ × ℤ) :=
  (intRange sw).flatMap fun dx =>
    (intRange sw).filterMap fun dy =>
      if dx * dx + dy * dy ≤ sw * sw then some (dx, dy) else none

/-- The three glyph passes of `add_text` (shadow, round stroke, fill) onto
the transparent overlay. -/
def composePasses {F : Type} (p : RenderPrims F) (isMulti : Bool) (t : String) (font : F)
    (x y strokeWidth shadowOffset : ℤ) (shadowCol strokeCol fillCol : RGBA)
    (overlay : Img) : Img :=
  let o1 := if 0 < shadowOffset then
      drawPass p isMulti t font overlay (x + shadowOffset, y + shadowOffset) shadowCol
    else overlay
  let o2 := if 0 < strokeWidth then
      (strokeOffsets strokeWidth).foldl
        (fun im d => drawPass p isMulti t font im (x + d.1, y + d.2) strokeCol) o1
    else o1
  drawPass p isMulti t font o2 (x, y) fillCol

/-- Models `TextOverlayService.add_text`, from the decoded RGBA image to the
flattened RGB result (base64/PNG codecs are outside the engine).  Argument
order and defaults follow the source; `maxWidthFrac` is the
`max_width_ratio` float as an exact dyadic rational. -/
def addText {F : Type} (p : RenderPrims F) (fontsDir : String) (img : Img) (text : String)
    (position fontPreset colorPreset : String) (fontSize : Option ℤ)
    (strokeWidth shadowOffset : ℤ) (maxWidthFrac : ℚ)
    (customPosition : Option (ℚ × ℚ)) (customColors : Option ColorScheme) : Img :=
  let width := img.width
  let height := img.height
  let overlay := transparentImg width height
  let fs : ℤ := match fontSize with
    | some s => s
    | none => dynamicFontSize height text.length
  let font := getFont p fontsDir fontPreset fs
  let colors := customColors.getD (lookupColor colorPreset)
  let fillColor := rgbOpaque (hexToRgb colors.fill)
  let strokeColor := rgbOpaque (hexToRgb colors.stroke)
  let shadowColor := rgbWithAlpha (hexToRgb colors.shadow) 128
  let posRatios := customPosition.getD (lookupPosition position)
  let m0 := p.measure font text
  let maxW := (pyTruncMul maxWidthFrac (width : ℤ)).toNat
  let tm : String × ℕ × ℕ :=
    if maxW < m0.1 then
      let t := wrapText (fun s => (p.measure font s).1) maxW text
      (t, p.measure font t)
    else (text, m0)
  let text2 := tm.1
  let tw := tm.2.1
  let th := tm.2.2
  let x0 := pyIntQ ((width : ℚ) * posRatios.1 - (tw : ℚ) / 2)
  let y0 := pyIntQ ((height : ℚ) * posRatios.2 - (th : ℚ) / 2)
  let x := clampCoord x0 (width : ℤ) (tw : ℤ)
  let y := clampCoord y0 (height : ℤ) (th : ℤ)
  let isMulti := text2.contains '\n'
  let o3 := composePasses p isMulti text2 font x y strokeWidth shadowOffset
    shadowColor strokeColor fillColor overlay
  convertRGB (alphaComposite img o3)

/-! ### `add_multiple_texts` -/

/-- One entry of the `texts` list: a Python dict, each key optional.  The
keys below `custom_colors` are ones `add_multiple_texts` never reads. -/
structure TextConfig where
  text : Option String
  position : Option String
  font_preset : Option String
  color_preset : Option String
  font_size : Option ℤ
  custom_position : Option (ℚ × ℚ)
  custom_colors : Option ColorScheme
  stroke_width : Option ℤ
  shadow_offset : Option ℤ
  max_width_frac : Option ℚ
deriving DecidableEq

/-- Models `add_multiple_texts`: sequentially apply `add_text`, each pass on the
previous output.  Only seven keys of each config are forwarded;
`stroke_width`, `shadow_offset` and `max_width_ratio` always take
`add_text`'s defaults 4, 5 and 0.9. -/
def addMultipleTexts {F : Type} (p : RenderPrims F) (fontsDir : String) (img : Img)
    (texts : List TextConfig) : Img :=
  texts.foldl
    (fun acc c =>
      addText p fontsDir acc (c.text.getD "") (c.position.getD "bottom_center")
        (c.font_preset.getD "impact") (c.color_preset.getD "white_shadow")
        c.font_size 4 5 fl09 c.custom_position c.custom_colors)
    img

/-! ### The gradient compositor (`add_gradient_background`) -/

/-- Band-row alpha for `position == "bottom"`:
`int(255 * opacity * (y / gradient_height))` in binary64. -/
def pyGradAlphaBottom (op : ℚ) (gh y : ℕ) : ℤ :=
  ⌊rne53 (rne53 (255 * op) * rne53 ((y : ℚ) / (gh : ℚ)))⌋

/-- Band-row alpha for the `top` branch:
`int(255 * opacity * (1 - y / gradient_height))` in binary64. -/
def pyGradAlphaTop (op : ℚ) (gh y : ℕ) : ℤ :=
  ⌊rne53 (rne53 (255 * op) * rne53 (1 - rne53 ((y : ℚ) / (gh : ℚ))))⌋

/-- The image row written for band row `y` (`actual_y`). -/
def gradActualY (position : String) (h gh y : ℕ) : ℕ :=
  if position = "bottom" then h - gh + y else y

/-- The pixel written on band row `y` (pure black, per-row alpha). -/
def gradRowColor (position : String) (op : ℚ) (gh y : ℕ) : RGBA :=
  if position = "bottom" then ⟨0, 0, 0, (pyGradAlphaBottom op gh y).toNat⟩
  else ⟨0, 0, 0, (pyGradAlphaTop op gh y).toNat⟩

/-- The double loop of `add_gradient_background` building the gradient
overlay by `putpixel`, starting from a fully transparent canvas. -/
def gradientOverlay (w h : ℕ) (position : String) (op : ℚ) (gh : ℕ) : Img :=
  (List.range gh).foldl
    (fun im y =>
      (List.range w).foldl
        (fun im2 x => putpixel im2 x (gradActualY position h gh y) (gradRowColor position op gh y))
        im)
    (transparentImg w h)

/-- Models `add_gradient_background`, decoded image to flattened RGB result.
`heightFrac` is the `height_ratio` float as an exact dyadic rational;
`gradient_height = int(height * height_ratio)`. -/
def addGradient (img : Img) (position : String) (opacity : ℚ) (heightFrac : ℚ) : Img :=
  let gh := (pyTruncMul heightFrac (img.height : ℤ)).toNat
  let gradient := gradientOverlay img.width img.height position opacity gh
  convertRGB (alphaComposite img gradient)

/-- Recover the band row index from the image row written for it. -/
def gradInvY (position : String) (h gh b : ℕ) : ℕ :=
  if position = "bottom" then b - (h - gh) else b

/-- The seven keys of a per-text config that `add_multiple_texts` forwards
to `add_text`; two configs agreeing here can differ at most in
`stroke_width`, `shadow_offset` and `max_width_ratio`, which it never
reads. -/
def sameForwarded (c1 c2 : TextConfig) : Prop :=
  c1.text = c2.text ∧ c1.position = c2.position ∧ c1.font_preset = c2.font_preset
    ∧ c1.color_preset = c2.color_preset ∧ c1.font_size = c2.font_size
    ∧ c1.custom_position = c2.custom_position ∧ c1.custom_colors = c2.custom_colors

/-- A small concrete instantiation of the Pillow primitives (fonts are
their names; loading fails exactly for nonpositive sizes, as FreeType
does; drawing a nonempty string marks one pixel), used to evaluate the
theorems on closed inputs. -/
def demoPrims : RenderPrims String where
  loadFile := fun path s => if 0 < s then some path else none
  loadSystem := fun name s => if 0 < s then some name else none
  defaultFont := "PIL-default-bitmap-font"
  measure := fun _ s => (8 * s.length, 16)
  drawText := fun im pos s _ col =>
    if s = "" then im else putpixel im pos.1.toNat pos.2.toNat col
  drawMultiline := fun im pos s _ col =>
    if s = "" then im else putpixel im pos.1.toNat pos.2.toNat col

/-- A concrete 3×2 opaque base image. -/
def demoImg : Img := ⟨3, 2, fun x y => ⟨x, y, 7, 255⟩⟩

/-! ## Lemmas: the binary64 model -/

set_option maxRecDepth 4000

theorem log2Fuel_bounds : ∀ (fuel n : ℕ), 1 ≤ n → n ≤ fuel →
    2 ^ log2Fuel fuel n ≤ n ∧ n < 2 ^ (log2Fuel fuel n + 1)
  | 0, _, h1, h2 => by exfalso; omega
  | fuel + 1, n, h1, h2 => by
    by_cases h : 2 ≤ n
    · have hrec := log2Fuel_bounds fuel (n / 2) (by omega) (by omega)
      simp only [log2Fuel, if_pos h]
      have e1 := hrec.1
      have e2 := hrec.2
      have p1 : 2 ^ (log2Fuel fuel (n / 2) + 1) = 2 * 2 ^ log2Fuel fuel (n / 2) := by
        rw [pow_succ]; ring
      have p2 : 2 ^ (log2Fuel fuel (n / 2) + 1 + 1) = 4 * 2 ^ log2Fuel fuel (n / 2) := by
        rw [pow_succ, pow_succ]; ring
      omega
    · have hn : n = 1 := by omega
      subst hn
      simp [log2Fuel]

theorem natLog2_bounds {n : ℕ} (h : 1 ≤ n) :
    2 ^ natLog2 n ≤ n ∧ n < 2 ^ (natLog2 n + 1) :=
  log2Fuel_bounds n n h le_rfl

theorem two_zpow_pos (n : ℤ) : (0 : ℚ) < 2 ^ n := zpow_pos (by norm_num) n

theorem two_zpow_le {m n : ℤ} (h : m ≤ n) : (2 : ℚ) ^ m ≤ 2 ^ n :=
  zpow_le_zpow_right₀ (by norm_num) h

theorem two_zpow_lt_iff {m n : ℤ} : (2 : ℚ) ^ m < 2 ^ n ↔ m < n :=
  zpow_lt_zpow_iff_right₀ (by norm_num)

theorem floorLog2_eq_ite (q : ℚ) :
    floorLog2 q =
      if (2 : ℚ) ^ ((natLog2 q.num.toNat : ℤ) - (natLog2 q.den : ℤ)) ≤ q
      then (natLog2 q.num.toNat : ℤ) - (natLog2 q.den : ℤ)
      else (natLog2 q.num.toNat : ℤ) - (natLog2 q.den : ℤ) - 1 := rfl

theorem floorLog2_spec {q : ℚ} (hq : 0 < q) :
    (2 : ℚ) ^ floorLog2 q ≤ q ∧ q < (2 : ℚ) ^ (floorLog2 q + 1) := by
  have hnum : 0 < q.num := Rat.num_pos.2 hq
  have ha1 : 1 ≤ q.num.toNat := by omega
  have hden : 1 ≤ q.den := q.den_pos
  have hden0 : (0 : ℚ) < (q.den : ℚ) := by exact_mod_cast hden
  obtain ⟨la1, la2⟩ := natLog2_bounds ha1
  obtain ⟨lb1, lb2⟩ := natLog2_bounds hden
  have haq : ((q.num.toNat : ℕ) : ℚ) = ((q.num : ℤ) : ℚ) := by
    exact_mod_cast congrArg (fun z : ℤ => (z : ℚ)) (Int.toNat_of_nonneg hnum.le)
  have hnum_eq : ((q.num : ℤ) : ℚ) = q * (q.den : ℚ) := by
    have h0 : (q.num : ℚ) / (q.den : ℚ) = q := Rat.num_div_den q
    rw [div_eq_iff hden0.ne'] at h0
    exact h0
  rw [floorLog2_eq_ite]
  set la := natLog2 q.num.toNat with hla
  set lb := natLog2 q.den with hlb
  set l : ℤ := (la : ℤ) - (lb : ℤ) with hl
  -- cast the natLog2 bounds into ℚ
  have A1 : (2 : ℚ) ^ (la : ℤ) ≤ q * (q.den : ℚ) := by
    rw [← hnum_eq, ← haq, zpow_natCast]; exact_mod_cast la1
  have A2 : q * (q.den : ℚ) < (2 : ℚ) ^ ((la : ℤ) + 1) := by
    rw [← hnum_eq, ← haq]
    have : ((la : ℤ) + 1) = ((la + 1 : ℕ) : ℤ) := by push_cast; ring
    rw [this, zpow_natCast]; exact_mod_cast la2
  have B1 : (2 : ℚ) ^ (lb : ℤ) ≤ (q.den : ℚ) := by
    rw [zpow_natCast]; exact_mod_cast lb1
  have B2 : (q.den : ℚ) < (2 : ℚ) ^ ((lb : ℤ) + 1) := by
    have : ((lb : ℤ) + 1) = ((lb + 1 : ℕ) : ℤ) := by push_cast; ring
    rw [this, zpow_natCast]; exact_mod_cast lb2
  have upper : q < (2 : ℚ) ^ (l + 1) := by
    have hsum : (2 : ℚ) ^ ((la : ℤ) + 1) = 2 ^ (l + 1) * 2 ^ (lb : ℤ) := by
      rw [← zpow_add₀ (by norm_num : (2:ℚ) ≠ 0)]
      congr 1; omega
    have step : q * (q.den : ℚ) < 2 ^ (l + 1) * (q.den : ℚ) := by
      calc q * (q.den : ℚ) < (2 : ℚ) ^ ((la : ℤ) + 1) := A2
        _ = 2 ^ (l + 1) * 2 ^ (lb : ℤ) := hsum
        _ ≤ 2 ^ (l + 1) * (q.den : ℚ) :=
          mul_le_mul_of_nonneg_left B1 (two_zpow_pos _).le
    exact lt_of_mul_lt_mul_right (by linarith) hden0.le
  have lower : (2 : ℚ) ^ (l - 1) < q := by
    have hsum : (2 : ℚ) ^ (l - 1) * 2 ^ ((lb : ℤ) + 1) = 2 ^ (la : ℤ) := by
      rw [← zpow_add₀ (by norm_num : (2:ℚ) ≠ 0)]
      congr 1; omega
    have step : (2 : ℚ) ^ (l - 1) * (q.den : ℚ) < q * (q.den : ℚ) := by
      calc (2 : ℚ) ^ (l - 1) * (q.den : ℚ)
          < 2 ^ (l - 1) * 2 ^ ((lb : ℤ) + 1) :=
            mul_lt_mul_of_pos_left B2 (two_zpow_pos _)
        _ = 2 ^ (la : ℤ) := hsum
        _ ≤ q * (q.den : ℚ) := A1
    exact lt_of_mul_lt_mul_right step hden0.le
  split_ifs with hcond
  · exact ⟨hcond, upper⟩
  · constructor
    · exact lower.le
    · have : l - 1 + 1 = l := by omega
      rw [this]
      exact lt_of_not_le hcond

theorem roundHalfEven_ge_floor (x : ℚ) : ⌊x⌋ ≤ roundHalfEven x := by
  simp only [roundHalfEven]
  split_ifs <;> omega

theorem roundHalfEven_le_floor_add_one (x : ℚ) : roundHalfEven x ≤ ⌊x⌋ + 1 := by
  simp only [roundHalfEven]
  split_ifs <;> omega

theorem roundHalfEven_le (x : ℚ) : (roundHalfEven x : ℚ) ≤ x + 1 / 2 := by
  have h1 : ((⌊x⌋ : ℤ) : ℚ) ≤ x := Int.floor_le x
  have h2 : x < ⌊x⌋ + 1 := Int.lt_floor_add_one x
  simp only [roundHalfEven]
  split_ifs with ha hb hc <;> push_cast <;> linarith

theorem roundHalfEven_ge (x : ℚ) : x - 1 / 2 ≤ (roundHalfEven x : ℚ) := by
  have h1 : ((⌊x⌋ : ℤ) : ℚ) ≤ x := Int.floor_le x
  have h2 : x < ⌊x⌋ + 1 := Int.lt_floor_add_one x
  simp only [roundHalfEven]
  split_ifs with ha hb hc <;> push_cast <;> linarith

theorem roundHalfEven_mono {x y : ℚ} (h : x ≤ y) : roundHalfEven x ≤ roundHalfEven y := by
  have hf : ⌊x⌋ ≤ ⌊y⌋ := Int.floor_mono h
  by_cases heq : ⌊x⌋ = ⌊y⌋
  · simp only [roundHalfEven, heq]
    split_ifs <;> try omega
    all_goals exfalso
    all_goals linarith
  · have hlt : ⌊x⌋ < ⌊y⌋ := lt_of_le_of_ne hf heq
    calc roundHalfEven x ≤ ⌊x⌋ + 1 := roundHalfEven_le_floor_add_one x
      _ ≤ ⌊y⌋ := by omega
      _ ≤ roundHalfEven y := roundHalfEven_ge_floor y

theorem rne53_of_pos {q : ℚ} (hq : 0 < q) :
    rne53 q =
      (roundHalfEven (q * (2 : ℚ) ^ (-(floorLog2 q - 52))) : ℚ) * (2 : ℚ) ^ (floorLog2 q - 52) := by
  unfold rne53
  rw [if_neg (by linarith)]

theorem rne53_zero : rne53 0 = 0 := by
  unfold rne53
  rw [if_pos le_rfl]

theorem rne53_nonneg (q : ℚ) : 0 ≤ rne53 q := by
  by_cases hq : q ≤ 0
  · unfold rne53; rw [if_pos hq]
  · have hq' : 0 < q := lt_of_not_le hq
    rw [rne53_of_pos hq']
    apply mul_nonneg _ (two_zpow_pos _).le
    have harg : 0 ≤ q * (2 : ℚ) ^ (-(floorLog2 q - 52)) :=
      mul_nonneg hq'.le (two_zpow_pos _).le
    have : (0 : ℤ) ≤ roundHalfEven (q * (2 : ℚ) ^ (-(floorLog2 q - 52))) := by
      have := roundHalfEven_ge_floor (q * (2 : ℚ) ^ (-(floorLog2 q - 52)))
      have hfl : (0 : ℤ) ≤ ⌊q * (2 : ℚ) ^ (-(floorLog2 q - 52))⌋ := Int.floor_nonneg.2 harg
      omega
    exact_mod_cast this

theorem rne53_le_add {q : ℚ} (hq : 0 < q) :
    rne53 q ≤ q + (2 : ℚ) ^ (floorLog2 q - 53) := by
  rw [rne53_of_pos hq]
  set e : ℤ := floorLog2 q - 52 with he
  have hcancel : q * (2 : ℚ) ^ (-e) * (2 : ℚ) ^ e = q := by
    rw [mul_assoc, ← zpow_add₀ (by norm_num : (2:ℚ) ≠ 0)]
    simp
  have hhalf : (1 / 2 : ℚ) * (2 : ℚ) ^ e = (2 : ℚ) ^ (floorLog2 q - 53) := by
    have : (1 / 2 : ℚ) = (2 : ℚ) ^ (-1 : ℤ) := by norm_num
    rw [this, ← zpow_add₀ (by norm_num : (2:ℚ) ≠ 0)]
    congr 1; omega
  calc (roundHalfEven (q * (2 : ℚ) ^ (-e)) : ℚ) * (2 : ℚ) ^ e
      ≤ (q * (2 : ℚ) ^ (-e) + 1 / 2) * (2 : ℚ) ^ e :=
        mul_le_mul_of_nonneg_right (roundHalfEven_le _) (two_zpow_pos _).le
    _ = q + (2 : ℚ) ^ (floorLog2 q - 53) := by
        rw [add_mul, hcancel, hhalf]

theorem rne53_ge_sub {q : ℚ} (hq : 0 < q) :
    q - (2 : ℚ) ^ (floorLog2 q - 53) ≤ rne53 q := by
  rw [rne53_of_pos hq]
  set e : ℤ := floorLog2 q - 52 with he
  have hcancel : q * (2 : ℚ) ^ (-e) * (2 : ℚ) ^ e = q := by
    rw [mul_assoc, ← zpow_add₀ (by norm_num : (2:ℚ) ≠ 0)]
    simp
  have hhalf : (1 / 2 : ℚ) * (2 : ℚ) ^ e = (2 : ℚ) ^ (floorLog2 q - 53) := by
    have : (1 / 2 : ℚ) = (2 : ℚ) ^ (-1 : ℤ) := by norm_num
    rw [this, ← zpow_add₀ (by norm_num : (2:ℚ) ≠ 0)]
    congr 1; omega
  calc q - (2 : ℚ) ^ (floorLog2 q - 53)
      = (q * (2 : ℚ) ^ (-e) - 1 / 2) * (2 : ℚ) ^ e := by
        rw [sub_mul, hcancel, hhalf]
    _ ≤ (roundHalfEven (q * (2 : ℚ) ^ (-e)) : ℚ) * (2 : ℚ) ^ e :=
        mul_le_mul_of_nonneg_right (roundHalfEven_ge _) (two_zpow_pos _).le

theorem rne53_le_zpow {q : ℚ} {k : ℤ} (hq : 0 ≤ q) (h : q < (2 : ℚ) ^ k) :
    rne53 q ≤ (2 : ℚ) ^ k := by
  rcases eq_or_lt_of_le hq with heq | hq'
  · rw [← heq, rne53_zero]; exact (two_zpow_pos _).le
  · have hspec := floorLog2_spec hq'
    set e : ℤ := floorLog2 q with he
    have hek : e < k := by
      by_contra hcon
      push_neg at hcon
      exact absurd (lt_of_lt_of_le h (two_zpow_le hcon)) (not_lt.2 hspec.1)
    rw [rne53_of_pos hq']
    have hs : q * (2 : ℚ) ^ (-(e - 52)) < (2 : ℚ) ^ (53 : ℤ) := by
      have h1 : q < (2 : ℚ) ^ (e + 1) := hspec.2
      calc q * (2 : ℚ) ^ (-(e - 52))
          < (2 : ℚ) ^ (e + 1) * (2 : ℚ) ^ (-(e - 52)) :=
            mul_lt_mul_of_pos_right h1 (two_zpow_pos _)
        _ = (2 : ℚ) ^ (53 : ℤ) := by
            rw [← zpow_add₀ (by norm_num : (2:ℚ) ≠ 0)]
            congr 1; omega
    have hrhe : (roundHalfEven (q * (2 : ℚ) ^ (-(e - 52))) : ℚ) ≤ (2 : ℚ) ^ (53 : ℤ) := by
      have h1 := roundHalfEven_le (q * (2 : ℚ) ^ (-(e - 52)))
      have h3 : ((2 : ℚ) ^ (53 : ℤ)) = ((2 ^ 53 : ℤ) : ℚ) := by norm_cast
      have h2 : (roundHalfEven (q * (2 : ℚ) ^ (-(e - 52))) : ℚ) < ((2 ^ 53 : ℤ) : ℚ) + 1 := by
        rw [← h3]; linarith
      have h2' : roundHalfEven (q * (2 : ℚ) ^ (-(e - 52))) < 2 ^ 53 + 1 := by
        exact_mod_cast h2
      rw [h3]
      exact_mod_cast (by omega : roundHalfEven (q * (2 : ℚ) ^ (-(e - 52))) ≤ 2 ^ 53)
    calc (roundHalfEven (q * (2 : ℚ) ^ (-(e - 52))) : ℚ) * (2 : ℚ) ^ (e - 52)
        ≤ (2 : ℚ) ^ (53 : ℤ) * (2 : ℚ) ^ (e - 52) :=
          mul_le_mul_of_nonneg_right hrhe (two_zpow_pos _).le
      _ = (2 : ℚ) ^ (e + 1) := by
          rw [← zpow_add₀ (by norm_num : (2:ℚ) ≠ 0)]
          congr 1; omega
      _ ≤ (2 : ℚ) ^ k := two_zpow_le (by omega)

theorem rne53_ge_zpow {q : ℚ} {k : ℤ} (h : (2 : ℚ) ^ k ≤ q) :
    (2 : ℚ) ^ k ≤ rne53 q := by
  have hq' : 0 < q := lt_of_lt_of_le (two_zpow_pos k) h
  have hspec := floorLog2_spec hq'
  set e : ℤ := floorLog2 q with he
  have hke : k ≤ e := by
    by_contra hcon
    push_neg at hcon
    exact absurd (lt_of_le_of_lt h hspec.2) (not_lt.2 (two_zpow_le (by omega)))
  rw [rne53_of_pos hq']
  have hs : (2 : ℚ) ^ (52 : ℤ) ≤ q * (2 : ℚ) ^ (-(e - 52)) := by
    calc (2 : ℚ) ^ (52 : ℤ) = (2 : ℚ) ^ e * (2 : ℚ) ^ (-(e - 52)) := by
          rw [← zpow_add₀ (by norm_num : (2:ℚ) ≠ 0)]
          congr 1; omega
      _ ≤ q * (2 : ℚ) ^ (-(e - 52)) :=
          mul_le_mul_of_nonneg_right hspec.1 (two_zpow_pos _).le
  have hrhe : (2 : ℚ) ^ (52 : ℤ) ≤ (roundHalfEven (q * (2 : ℚ) ^ (-(e - 52))) : ℚ) := by
    have h1 := roundHalfEven_ge (q * (2 : ℚ) ^ (-(e - 52)))
    have h3 : ((2 : ℚ) ^ (52 : ℤ)) = ((2 ^ 52 : ℤ) : ℚ) := by norm_cast
    have h2 : (((2 ^ 52 - 1 : ℤ)) : ℚ) < (roundHalfEven (q * (2 : ℚ) ^ (-(e - 52))) : ℚ) := by
      have : ((2 ^ 52 - 1 : ℤ) : ℚ) = (2 : ℚ) ^ (52 : ℤ) - 1 := by rw [h3]; push_cast; ring
      rw [this]; linarith
    have h2' : (2 ^ 52 - 1 : ℤ) < roundHalfEven (q * (2 : ℚ) ^ (-(e - 52))) := by
      exact_mod_cast h2
    rw [h3]
    exact_mod_cast (by omega : (2 ^ 52 : ℤ) ≤ roundHalfEven (q * (2 : ℚ) ^ (-(e - 52))))
  calc (2 : ℚ) ^ k ≤ (2 : ℚ) ^ e := two_zpow_le hke
    _ = (2 : ℚ) ^ (52 : ℤ) * (2 : ℚ) ^ (e - 52) := by
        rw [← zpow_add₀ (by norm_num : (2:ℚ) ≠ 0)]
        congr 1; omega
    _ ≤ (roundHalfEven (q * (2 : ℚ) ^ (-(e - 52))) : ℚ) * (2 : ℚ) ^ (e - 52) :=
        mul_le_mul_of_nonneg_right hrhe (two_zpow_pos _).le

theorem rne53_mono {x y : ℚ} (hx : 0 ≤ x) (hxy : x ≤ y) : rne53 x ≤ rne53 y := by
  rcases eq_or_lt_of_le hx with heq | hx'
  · rw [← heq, rne53_zero]
    exact rne53_nonneg y
  · have hy' : 0 < y := lt_of_lt_of_le hx' hxy
    have hex := floorLog2_spec hx'
    have hey := floorLog2_spec hy'
    have hle : floorLog2 x ≤ floorLog2 y := by
      by_contra hcon
      push_neg at hcon
      have h1 : (2 : ℚ) ^ floorLog2 x ≤ y := le_trans hex.1 hxy
      have h2 : y < (2 : ℚ) ^ floorLog2 x := lt_of_lt_of_le hey.2 (two_zpow_le (by omega))
      linarith
    rcases eq_or_lt_of_le hle with heq2 | hlt2
    · -- same binade: scaled roundHalfEven monotonicity
      rw [rne53_of_pos hx', rne53_of_pos hy', ← heq2]
      apply mul_le_mul_of_nonneg_right _ (two_zpow_pos _).le
      have harg : x * (2 : ℚ) ^ (-(floorLog2 x - 52)) ≤ y * (2 : ℚ) ^ (-(floorLog2 x - 52)) :=
        mul_le_mul_of_nonneg_right hxy (two_zpow_pos _).le
      exact_mod_cast roundHalfEven_mono harg
    · -- the binade of x ends at or below the binade of y
      calc rne53 x ≤ (2 : ℚ) ^ (floorLog2 x + 1) := rne53_le_zpow hx'.le hex.2
        _ ≤ (2 : ℚ) ^ floorLog2 y := two_zpow_le (by omega)
        _ ≤ rne53 y := rne53_ge_zpow hey.1

theorem pyTruncMul_nonneg (c : ℚ) (b : ℤ) : 0 ≤ pyTruncMul c b :=
  Int.floor_nonneg.2 (rne53_nonneg _)

theorem pyTruncMul_le {c : ℚ} {b : ℤ} (hc0 : 0 ≤ c) (hc1 : c ≤ 1) (hb0 : 0 ≤ b)
    (hb : b < 2 ^ 53) : pyTruncMul c b ≤ b := by
  set x : ℚ := (b : ℚ) * c with hxdef
  have hbq : (0 : ℚ) ≤ (b : ℚ) := by exact_mod_cast hb0
  have hx0 : 0 ≤ x := mul_nonneg hbq hc0
  have hxb : x ≤ (b : ℚ) := by
    calc x ≤ (b : ℚ) * 1 := mul_le_mul_of_nonneg_left hc1 hbq
      _ = (b : ℚ) := mul_one _
  rcases eq_or_lt_of_le hx0 with heq | hx'
  · unfold pyTruncMul
    rw [← hxdef, ← heq, rne53_zero]
    simpa using hb0
  · have h2_53 : (b : ℚ) < (2 : ℚ) ^ (53 : ℤ) := by
      have hZ : ((2 : ℚ) ^ (53 : ℤ)) = ((2 ^ 53 : ℤ) : ℚ) := by norm_cast
      rw [hZ]; exact_mod_cast hb
    have hxlt : x < (2 : ℚ) ^ (53 : ℤ) := lt_of_le_of_lt hxb h2_53
    have hspec := floorLog2_spec hx'
    have he53 : floorLog2 x < 53 := by
      have := lt_of_le_of_lt hspec.1 hxlt
      exact two_zpow_lt_iff.1 this
    have herr : rne53 x ≤ x + (2 : ℚ) ^ (floorLog2 x - 53) := rne53_le_add hx'
    have hsmall : (2 : ℚ) ^ (floorLog2 x - 53) ≤ (2 : ℚ) ^ (-1 : ℤ) := two_zpow_le (by omega)
    have hhalf : ((2 : ℚ) ^ (-1 : ℤ)) = 1 / 2 := by norm_num
    have hlt : rne53 x < (b : ℚ) + 1 := by
      rw [hhalf] at hsmall
      linarith
    unfold pyTruncMul
    rw [← hxdef]
    have : (((b + 1 : ℤ)) : ℚ) = (b : ℚ) + 1 := by push_cast; ring
    exact Int.lt_add_one_iff.1 (Int.floor_lt.2 (by rw [this]; exact hlt))

theorem pyGradAlphaBottom_nonneg (op : ℚ) (gh y : ℕ) : 0 ≤ pyGradAlphaBottom op gh y :=
  Int.floor_nonneg.2 (rne53_nonneg _)

theorem pyGradAlphaBottom_mono (op : ℚ) {gh y1 y2 : ℕ} (h12 : y1 ≤ y2) :
    pyGradAlphaBottom op gh y1 ≤ pyGradAlphaBottom op gh y2 := by
  unfold pyGradAlphaBottom
  apply Int.floor_mono
  apply rne53_mono
  · exact mul_nonneg (rne53_nonneg _) (rne53_nonneg _)
  · apply mul_le_mul_of_nonneg_left _ (rne53_nonneg _)
    apply rne53_mono
    · positivity
    · rcases Nat.eq_zero_or_pos gh with hgh | hgh
      · simp [hgh]
      · have hghq : (0 : ℚ) < (gh : ℚ) := by exact_mod_cast hgh
        rw [div_le_div_iff_of_pos_right hghq]
        exact_mod_cast h12

theorem rne53_div_le_one {gh y : ℕ} (h : y < gh) : rne53 ((y : ℚ) / (gh : ℚ)) ≤ 1 := by
  have hgh : 0 < gh := by omega
  have hghq : (0 : ℚ) < (gh : ℚ) := by exact_mod_cast hgh
  have hlt : (y : ℚ) / (gh : ℚ) < 1 := by
    rw [div_lt_one hghq]
    exact_mod_cast h
  have h0 : (0 : ℚ) ≤ (y : ℚ) / (gh : ℚ) := by positivity
  have := rne53_le_zpow h0 (by rw [zpow_zero]; exact hlt : (y : ℚ) / (gh : ℚ) < (2 : ℚ) ^ (0 : ℤ))
  rwa [zpow_zero] at this

theorem pyGradAlphaTop_antitone (op : ℚ) {gh y1 y2 : ℕ} (h12 : y1 ≤ y2)
    (h2 : y2 < gh) : pyGradAlphaTop op gh y2 ≤ pyGradAlphaTop op gh y1 := by
  unfold pyGradAlphaTop
  apply Int.floor_mono
  apply rne53_mono
  · exact mul_nonneg (rne53_nonneg _) (rne53_nonneg _)
  · apply mul_le_mul_of_nonneg_left _ (rne53_nonneg _)
    apply rne53_mono
    · have := rne53_div_le_one h2
      linarith
    · have hgh : 0 < gh := by omega
      have hghq : (0 : ℚ) < (gh : ℚ) := by exact_mod_cast hgh
      have hd : rne53 ((y1 : ℚ) / (gh : ℚ)) ≤ rne53 ((y2 : ℚ) / (gh : ℚ)) := by
        apply rne53_mono
        · positivity
        · rw [div_le_div_iff_of_pos_right hghq]
          exact_mod_cast h12
      linarith

/-! ## Lemmas: text wrapping -/

theorem joinSpace_singleton (w : String) : joinSpace [w] = w := rfl

/-- Loop invariant of `_wrap_text`: the current line is empty, a single
word, or has been width-checked. -/
theorem wrapLines_sound (wfn : String → ℕ) (maxW : ℕ) :
    ∀ (ws cur : List String),
      (cur = [] ∨ cur.length = 1 ∨ wfn (joinSpace cur) ≤ maxW) →
      ∀ line ∈ wrapLines wfn maxW cur ws,
        wfn (joinSpace line) ≤ maxW ∨ line.length = 1 := by
  intro ws
  induction ws with
  | nil =>
    intro cur hinv line hline
    simp only [wrapLines] at hline
    split_ifs at hline with hemp
    · simp at hline
    · have hcur : line = cur := by simpa using hline
      subst hcur
      rcases hinv with h | h | h
      · subst h; simp at hemp
      · exact Or.inr h
      · exact Or.inl h
  | cons word rest ih =>
    intro cur hinv line hline
    simp only [wrapLines] at hline
    split_ifs at hline with h1 h2
    · exact ih _ (Or.inr (Or.inr h1)) line hline
    · exact ih [word] (Or.inr (Or.inl rfl)) line hline
    · rcases List.mem_cons.1 hline with hcur | hmem
      · subst hcur
        rcases hinv with h | h | h
        · subst h; simp at h2
        · exact Or.inr h
        · exact Or.inl h
      · exact ih [word] (Or.inr (Or.inl rfl)) line hmem

/-! ## Lemmas: gradient overlay loops -/

theorem putpixel_px (im : Img) (x y a b : ℕ) (c : RGBA) :
    (putpixel im x y c).px a b = if a = x ∧ b = y then c else im.px a b := rfl

theorem foldl_putpixel_row (w row : ℕ) (c : RGBA) (im : Img) (a b : ℕ) :
    ((List.range w).foldl (fun m x => putpixel m x row c) im).px a b
      = if a < w ∧ b = row then c else im.px a b := by
  induction w generalizing im with
  | zero =>
    simp [List.range_zero]
  | succ w ih =>
    rw [List.range_succ, List.foldl_append, List.foldl_cons, List.foldl_nil]
    rw [putpixel_px, ih]
    by_cases h1 : a = w ∧ b = row
    · have : ¬(a < w ∧ b = row) := by omega
      simp only [if_pos h1, if_neg this]
      have : a < w + 1 ∧ b = row := by omega
      rw [if_pos this]
    · rw [if_neg h1]
      by_cases h2 : a < w ∧ b = row
      · have : a < w + 1 ∧ b = row := by omega
        rw [if_pos h2, if_pos this]
      · have : ¬(a < w + 1 ∧ b = row) := by omega
        rw [if_neg h2, if_neg this]

theorem gradInvY_actualY (position : String) (h gh y : ℕ) :
    gradInvY position h gh (gradActualY position h gh y) = y := by
  unfold gradInvY gradActualY
  split_ifs
  · omega
  · rfl

theorem foldl_gradRows (w h : ℕ) (pos : String) (op : ℚ) (gh n : ℕ) (im : Img) (a b : ℕ) :
    ((List.range n).foldl
        (fun m y =>
          (List.range w).foldl
            (fun m2 x => putpixel m2 x (gradActualY pos h gh y) (gradRowColor pos op gh y)) m)
        im).px a b
      = if a < w ∧ ∃ y, y < n ∧ b = gradActualY pos h gh y then
          gradRowColor pos op gh (gradInvY pos h gh b)
        else im.px a b := by
  induction n generalizing im with
  | zero =>
    simp [List.range_zero]
  | succ n ih =>
    rw [List.range_succ, List.foldl_append, List.foldl_cons, List.foldl_nil]
    rw [foldl_putpixel_row]
    by_cases hcase : a < w ∧ b = gradActualY pos h gh n
    · rw [if_pos hcase]
      have hex : a < w ∧ ∃ y, y < n + 1 ∧ b = gradActualY pos h gh y :=
        ⟨hcase.1, n, by omega, hcase.2⟩
      rw [if_pos hex, hcase.2, gradInvY_actualY]
    · rw [if_neg hcase, ih]
      by_cases hA : a < w ∧ ∃ y, y < n ∧ b = gradActualY pos h gh y
      · have hB : a < w ∧ ∃ y, y < n + 1 ∧ b = gradActualY pos h gh y := by
          obtain ⟨hw, y, hy, hb⟩ := hA
          exact ⟨hw, y, by omega, hb⟩
        rw [if_pos hA, if_pos hB]
      · by_cases hB : a < w ∧ ∃ y, y < n + 1 ∧ b = gradActualY pos h gh y
        · exfalso
          obtain ⟨hw, y, hy, hb⟩ := hB
          rcases Nat.lt_succ_iff_lt_or_eq.1 hy with hlt | heq
          · exact hA ⟨hw, y, hlt, hb⟩
          · subst heq; exact hcase ⟨hw, hb⟩
        · rw [if_neg hA, if_neg hB]

theorem gradientOverlay_px (w h : ℕ) (pos : String) (op : ℚ) (gh x y : ℕ)
    (hx : x < w) (hy : y < gh) :
    (gradientOverlay w h pos op gh).px x (gradActualY pos h gh y)
      = gradRowColor pos op gh y := by
  unfold gradientOverlay
  rw [foldl_gradRows]
  rw [if_pos ⟨hx, y, hy, rfl⟩, gradInvY_actualY]

/-! ## Lemmas: empty-text and drawing passes -/

theorem foldl_fixed {α : Type} (f : Img → α → Img) (h : ∀ im d, f im d = im) :
    ∀ (l : List α) (im : Img), l.foldl f im = im := by
  intro l
  induction l with
  | nil => intro im; rfl
  | cons d rest ih => intro im; rw [List.foldl_cons, h]; exact ih im

theorem wrapText_empty (wfn : String → ℕ) (maxW : ℕ) : wrapText wfn maxW "" = "" := rfl

theorem composePasses_empty {F : Type} (p : RenderPrims F) (font : F)
    (x y sw so : ℤ) (sc stc fc : RGBA) (ov : Img)
    (hdraw : ∀ im pos f col, p.drawText im pos "" f col = im) :
    composePasses p false "" font x y sw so sc stc fc ov = ov := by
  have hd : ∀ (im : Img) (pos : ℤ × ℤ) (col : RGBA),
      drawPass p false "" font im pos col = im := by
    intro im pos col
    simp only [drawPass, Bool.false_eq_true, if_false]
    exact hdraw im pos font col
  have hfold : ∀ (l : List (ℤ × ℤ)) (im : Img),
      l.foldl (fun im2 d => drawPass p false "" font im2 (x + d.1, y + d.2) stc) im = im :=
    foldl_fixed _ (fun im2 d => hd im2 _ _)
  unfold composePasses
  split_ifs with h1 h2 <;> simp [hd, hfold]

theorem alphaCompositePx_transparent (b : RGBA) :
    alphaCompositePx b ⟨0, 0, 0, 0⟩ = b := rfl

/-! ## Helper lemmas for the claim theorems -/

theorem gradActualY_bottom (h gh y : ℕ) : gradActualY "bottom" h gh y = h - gh + y :=
  if_pos rfl

theorem gradActualY_top (h gh y : ℕ) : gradActualY "top" h gh y = y :=
  if_neg (by decide)

theorem gradRowColor_bottom (op : ℚ) (gh y : ℕ) :
    gradRowColor "bottom" op gh y = ⟨0, 0, 0, (pyGradAlphaBottom op gh y).toNat⟩ :=
  if_pos rfl

theorem gradRowColor_top (op : ℚ) (gh y : ℕ) :
    gradRowColor "top" op gh y = ⟨0, 0, 0, (pyGradAlphaTop op gh y).toNat⟩ :=
  if_neg (by decide)

theorem lookup_eq_none_of_not_mem_keys {β : Type} (l : List (String × β)) (id : String)
    (h : id ∉ l.map Prod.fst) : l.lookup id = none := by
  induction l with
  | nil => rfl
  | cons kv rest ih =>
    obtain ⟨k, v⟩ := kv
    simp only [List.map_cons, List.mem_cons] at h
    push_neg at h
    rw [List.lookup_cons]
    rw [show (id == k) = false from beq_eq_false_iff_ne.2 h.1]
    exact ih h.2

theorem getFontLoop_none {F : Type} (p : RenderPrims F) (dir : String) (size : ℤ)
    (hfile : ∀ path, p.loadFile path size = none)
    (hsys : ∀ name, p.loadSystem name size = none) :
    ∀ names, getFontLoop p dir size names none = none := by
  intro names
  induction names with
  | nil => rfl
  | cons name rest ih =>
    simp only [getFontLoop, tryCustomDir, hfile, hsys]
    exact ih

/-! ## Claim theorems -/

/-- C1 (confirmed): the word-wrapping loop of `_wrap_text` appends a
word to the current line exactly when the measured width of
(current line + " " + word) stays within `max_width`; consequently every
produced line either measures within `max_width` or is a single word that
alone exceeds it, placed on its own line without splitting. -/
theorem c1_wrap_lines_within_max (wfn : String → ℕ) (maxW : ℕ) (words : List String)
    (line : List String) (hline : line ∈ wrapLines wfn maxW [] words) :
    wfn (joinSpace line) ≤ maxW ∨ ∃ w, line = [w] ∧ maxW < wfn w := by
  rcases wrapLines_sound wfn maxW words [] (Or.inl rfl) line hline with h | h
  · exact Or.inl h
  · obtain ⟨w, rfl⟩ := List.length_eq_one.1 h
    by_cases hw : wfn w ≤ maxW
    · exact Or.inl (by rwa [joinSpace_singleton])
    · exact Or.inr ⟨w, rfl, lt_of_not_le hw⟩

/-- Witness for C1 at a concrete measure, width bound and word list. -/
theorem c1_wrap_lines_within_max_witness :
    ["abcdefghij"] ∈ wrapLines String.length 7 [] ["aa", "bb", "cc", "abcdefghij"]
    ∧ (String.length (joinSpace ["abcdefghij"]) ≤ 7
        ∨ ∃ w, ["abcdefghij"] = [w] ∧ 7 < String.length w) := by
  have hmem : ["abcdefghij"] ∈ wrapLines String.length 7 [] ["aa", "bb", "cc", "abcdefghij"] := by
    with_unfolding_all decide
  exact ⟨hmem, c1_wrap_lines_within_max String.length 7 _ _ hmem⟩

/-- C5 (confirmed): each draw-origin coordinate is clamped into
`[10, dim - box - 10]`; when the canvas is too small for both bounds the
origin degrades to the 10-pixel minimum margin. -/
theorem c5_clamped_placement (v dim box : ℤ) :
    (10 ≤ dim - box - 10 →
      10 ≤ clampCoord v dim box ∧ clampCoord v dim box ≤ dim - box - 10)
    ∧ (dim - box - 10 < 10 → clampCoord v dim box = 10) := by
  unfold clampCoord
  constructor
  · intro h
    constructor <;> omega
  · intro h
    omega

/-- Witness for C5: a roomy canvas and a too-small canvas. -/
theorem c5_clamped_placement_witness :
    ((10 : ℤ) ≤ 100 - 30 - 10
      ∧ 10 ≤ clampCoord 500 100 30 ∧ clampCoord 500 100 30 ≤ 100 - 30 - 10)
    ∧ ((40 : ℤ) - 25 - 10 < 10 ∧ clampCoord 0 40 25 = 10) := by
  refine ⟨⟨by decide, ?_⟩, ⟨by decide, ?_⟩⟩
  · exact (c5_clamped_placement 500 100 30).1 (by decide)
  · exact (c5_clamped_placement 0 40 25).2 (by decide)

/-- C7 (confirmed): within the gradient band the per-row alpha written
by `add_gradient_background` is monotone nondecreasing toward the bottom
edge for `position = "bottom"`, and monotone nonincreasing for `top`, for
every `peak_opacity` in `[0, 1]` and every band height. -/
theorem c7_gradient_monotone (w h : ℕ) (op : ℚ) (gh x y1 y2 : ℕ)
    (hop0 : 0 ≤ op) (hop1 : op ≤ 1) (hx : x < w) (h12 : y1 < y2) (h2 : y2 < gh) :
    ((gradientOverlay w h "bottom" op gh).px x (h - gh + y1)).a
      ≤ ((gradientOverlay w h "bottom" op gh).px x (h - gh + y2)).a
    ∧ ((gradientOverlay w h "top" op gh).px x y2).a
      ≤ ((gradientOverlay w h "top" op gh).px x y1).a := by
  have hy1 : y1 < gh := by omega
  have hb1 := gradientOverlay_px w h "bottom" op gh x y1 hx hy1
  have hb2 := gradientOverlay_px w h "bottom" op gh x y2 hx h2
  have ht1 := gradientOverlay_px w h "top" op gh x y1 hx hy1
  have ht2 := gradientOverlay_px w h "top" op gh x y2 hx h2
  rw [gradActualY_bottom] at hb1 hb2
  rw [gradActualY_top] at ht1 ht2
  rw [hb1, hb2, ht1, ht2, gradRowColor_bottom, gradRowColor_bottom,
    gradRowColor_top, gradRowColor_top]
  constructor
  · exact Int.toNat_le_toNat (pyGradAlphaBottom_mono op h12.le)
  · exact Int.toNat_le_toNat (pyGradAlphaTop_antitone op h12.le h2)

/-- Witness for C7 on a 1×4 canvas with a 4-row band at opacity 1/2. -/
theorem c7_gradient_monotone_witness :
    ((0 : ℚ) ≤ 1 / 2) ∧ ((1 / 2 : ℚ) ≤ 1)
    ∧ (((gradientOverlay 1 4 "bottom" (1 / 2) 4).px 0 (4 - 4 + 1)).a
        ≤ ((gradientOverlay 1 4 "bottom" (1 / 2) 4).px 0 (4 - 4 + 2)).a
      ∧ ((gradientOverlay 1 4 "top" (1 / 2) 4).px 0 2).a
        ≤ ((gradientOverlay 1 4 "top" (1 / 2) 4).px 0 1).a) :=
  ⟨by norm_num, by norm_num,
    c7_gradient_monotone 1 4 (1 / 2) 4 0 1 2 (by norm_num) (by norm_num)
      (by decide) (by decide) (by decide)⟩

/-- C4 counterexample: the claim's formula `round(255*peak*(y/band))`
disagrees with the code's `int(...)` truncation (alpha 127 written where
the claim's formula gives 128), and its scenario band 468–719 disagrees
with `int(720*0.35) = 251` (rows 469–719). -/
theorem c4_gradient_alpha_counterexample :
    ((gradientOverlay 1 2 "bottom" 1 2).px 0 1).a = 127
    ∧ round ((255 : ℚ) * 1 * ((1 : ℚ) / 2)) = (128 : ℤ)
    ∧ (pyTruncMul fl035 720).toNat = 251
    ∧ (251 : ℕ) ≠ 252 := by
  refine ⟨?_, by with_unfolding_all decide, by with_unfolding_all decide, by decide⟩
  have h := gradientOverlay_px 1 2 "bottom" 1 2 0 1 (by decide) (by decide)
  rw [gradActualY_bottom] at h
  norm_num at h
  rw [h, gradRowColor_bottom]
  show (pyGradAlphaBottom 1 2 1).toNat = 127
  with_unfolding_all decide

/-- C4 (amended): for every band row `y` the gradient overlay writes
pure black with alpha `int(255*peak_opacity*(y/band_height))` for
`direction = bottom` and `int(255*peak_opacity*(1 - y/band_height))` for
`top`, where `int(...)` truncates the binary64 product; in the scenario
(`bottom`, `peak_opacity = 0.5`, `band_height_ratio = 0.35`, 720-tall
image) the band height is `int(720*0.35) = 251`, so the band covers rows
469–719, with alpha 126 at row 719 (band row 250) and 0 at row 469. -/
theorem c4_gradient_alpha_amended :
    (∀ (w h : ℕ) (op : ℚ) (gh x y : ℕ), x < w → y < gh →
        (gradientOverlay w h "bottom" op gh).px x (h - gh + y)
            = ⟨0, 0, 0, (pyGradAlphaBottom op gh y).toNat⟩
      ∧ (gradientOverlay w h "top" op gh).px x y
            = ⟨0, 0, 0, (pyGradAlphaTop op gh y).toNat⟩)
    ∧ (pyTruncMul fl035 720).toNat = 251
    ∧ pyGradAlphaBottom (1 / 2) 251 250 = 126
    ∧ pyGradAlphaBottom (1 / 2) 251 0 = 0 := by
  refine ⟨?_, by with_unfolding_all decide, by with_unfolding_all decide,
    by with_unfolding_all decide⟩
  intro w h op gh x y hx hy
  constructor
  · have hb := gradientOverlay_px w h "bottom" op gh x y hx hy
    rw [gradActualY_bottom] at hb
    rw [hb, gradRowColor_bottom]
  · have ht := gradientOverlay_px w h "top" op gh x y hx hy
    rw [gradActualY_top] at ht
    rw [ht, gradRowColor_top]

/-- Witness for the amended C4 at the scenario's bottom row 719. -/
theorem c4_gradient_alpha_amended_witness :
    (gradientOverlay 1 720 "bottom" (1 / 2) 251).px 0 (720 - 251 + 250)
      = ⟨0, 0, 0, (pyGradAlphaBottom (1 / 2) 251 250).toNat⟩ :=
  (c4_gradient_alpha_amended.1 1 720 (1 / 2) 251 0 250 (by decide) (by decide)).1

/-- C2 counterexample: at canvas height 713 with short text, the code's
`int(713 * 0.12)` truncates to 85, while the claim's
`round(canvas_height * 0.12)` gives 86. -/
theorem c2_dynamic_size_counterexample :
    dynamicFontSize 713 2 = 85
    ∧ max (round ((713 : ℚ) * (12 / 100))) 24 = (86 : ℤ)
    ∧ (85 : ℤ) ≠ 86 := by
  refine ⟨by with_unfolding_all decide, by with_unfolding_all decide, by decide⟩

/-- C2 (amended): when no explicit size is given, `add_text` uses
`max(base, 24)` where `base = int(height * 0.12)` is truncated (not
rounded), then truncated again through `int(base * 0.8)` when
`len(text) > 20` and `int(base * 0.7)` when `len(text) > 30` (compounding);
the size never drops below 24, is monotone under the length reductions,
equals 85 at height 713, and is exactly the size handed to the font
resolver (calling `add_text` with the computed size is
indistinguishable from passing no size). -/
theorem c2_dynamic_size_amended :
    (∀ (h len : ℕ), 24 ≤ dynamicFontSize h len)
    ∧ (∀ h : ℕ, (h : ℤ) < 2 ^ 53 →
        dynamicFontSize h 35 ≤ dynamicFontSize h 15
          ∧ dynamicFontSize h 15 ≤ dynamicFontSize h 5)
    ∧ dynamicFontSize 713 2 = 85
    ∧ (∀ {F : Type} (p : RenderPrims F) (dir : String) (img : Img) (text : String)
        (position fontPreset colorPreset : String) (sw so : ℤ) (mwf : ℚ)
        (cpos : Option (ℚ × ℚ)) (ccol : Option ColorScheme),
        addText p dir img text position fontPreset colorPreset none sw so mwf cpos ccol
          = addText p dir img text position fontPreset colorPreset
              (some (dynamicFontSize img.height text.length)) sw so mwf cpos ccol) := by
  refine ⟨?_, ?_, by with_unfolding_all decide, ?_⟩
  · intro h len
    exact le_max_right _ _
  · intro h hh
    have h0 : (0 : ℤ) ≤ (h : ℤ) := Int.ofNat_nonneg h
    have hb0 : pyTruncMul fl012 (h : ℤ) ≤ (h : ℤ) :=
      pyTruncMul_le (by norm_num [fl012]) (by norm_num [fl012]) h0 hh
    have hb0n := pyTruncMul_nonneg fl012 (h : ℤ)
    have hb0lt : pyTruncMul fl012 (h : ℤ) < 2 ^ 53 := lt_of_le_of_lt hb0 hh
    have hb1 : pyTruncMul fl08 (pyTruncMul fl012 (h : ℤ)) ≤ pyTruncMul fl012 (h : ℤ) :=
      pyTruncMul_le (by norm_num [fl08]) (by norm_num [fl08]) hb0n hb0lt
    have hb1n := pyTruncMul_nonneg fl08 (pyTruncMul fl012 (h : ℤ))
    have hb1lt : pyTruncMul fl08 (pyTruncMul fl012 (h : ℤ)) < 2 ^ 53 :=
      lt_of_le_of_lt hb1 hb0lt
    have hb2 : pyTruncMul fl07 (pyTruncMul fl08 (pyTruncMul fl012 (h : ℤ)))
        ≤ pyTruncMul fl08 (pyTruncMul fl012 (h : ℤ)) :=
      pyTruncMul_le (by norm_num [fl07]) (by norm_num [fl07]) hb1n hb1lt
    have e35 : dynamicFontSize h 35
        = max (pyTruncMul fl07 (pyTruncMul fl08 (pyTruncMul fl012 (h : ℤ)))) 24 := by
      simp [dynamicFontSize]
    have e15 : dynamicFontSize h 15 = max (pyTruncMul fl012 (h : ℤ)) 24 := by
      simp [dynamicFontSize]
    have e5 : dynamicFontSize h 5 = max (pyTruncMul fl012 (h : ℤ)) 24 := by
      simp [dynamicFontSize]
    rw [e35, e15, e5]
    exact ⟨max_le_max (le_trans hb2 hb1) le_rfl, le_refl _⟩
  · intro F p dir img text position fontPreset colorPreset sw so mwf cpos ccol
    rfl

/-- Witness for the amended C2 at height 713. -/
theorem c2_dynamic_size_amended_witness :
    ((713 : ℤ) < 2 ^ 53)
    ∧ (dynamicFontSize 713 35 ≤ dynamicFontSize 713 15
        ∧ dynamicFontSize 713 15 ≤ dynamicFontSize 713 5) :=
  ⟨by with_unfolding_all decide, c2_dynamic_size_amended.2.1 713 (by with_unfolding_all decide)⟩

/-- C9 (confirmed): registry lookup never fails: an identifier absent
from `COLOR_PRESETS` / `POSITION_PRESETS` falls back to the documented
defaults (`white_shadow` / `bottom_center`), and a known identifier
returns its own preset. -/
theorem c9_registry_fallback :
    (∀ id : String, id ∉ COLOR_PRESETS.map Prod.fst → lookupColor id = whiteShadowScheme)
    ∧ (∀ kv ∈ COLOR_PRESETS, lookupColor kv.1 = kv.2)
    ∧ (∀ id : String, id ∉ POSITION_PRESETS.map Prod.fst → lookupPosition id = bottomCenterPos)
    ∧ (∀ kv ∈ POSITION_PRESETS, lookupPosition kv.1 = kv.2) := by
  refine ⟨?_, by with_unfolding_all decide, ?_, by with_unfolding_all decide⟩
  · intro id h
    unfold lookupColor
    rw [lookup_eq_none_of_not_mem_keys _ _ h]
    rfl
  · intro id h
    unfold lookupPosition
    rw [lookup_eq_none_of_not_mem_keys _ _ h]
    rfl

/-- Witness for C9: one unknown and one known identifier per registry. -/
theorem c9_registry_fallback_witness :
    ("neon" ∉ COLOR_PRESETS.map Prod.fst ∧ lookupColor "neon" = whiteShadowScheme)
    ∧ (("red_alert", (⟨"#FF0000", "#FFFFFF", "#000000"⟩ : ColorScheme)) ∈ COLOR_PRESETS
        ∧ lookupColor "red_alert" = ⟨"#FF0000", "#FFFFFF", "#000000"⟩)
    ∧ ("floating" ∉ POSITION_PRESETS.map Prod.fst
        ∧ lookupPosition "floating" = bottomCenterPos) := by
  have h1 : "neon" ∉ COLOR_PRESETS.map Prod.fst := by decide
  have h2 : (("red_alert", (⟨"#FF0000", "#FFFFFF", "#000000"⟩ : ColorScheme))) ∈ COLOR_PRESETS := by
    decide
  have h3 : "floating" ∉ POSITION_PRESETS.map Prod.fst := by decide
  exact ⟨⟨h1, c9_registry_fallback.1 "neon" h1⟩,
    ⟨h2, c9_registry_fallback.2.1 _ h2⟩,
    ⟨h3, c9_registry_fallback.2.2.1 "floating" h3⟩⟩

/-- C6 (confirmed): `add_text` and `add_gradient_background` always
return an image with the input's dimensions, flattened to an opaque
raster (alpha 255 everywhere, i.e. 3 effective channels). -/
theorem c6_dimension_preservation {F : Type} (p : RenderPrims F) (dir : String) (img : Img)
    (text position fontPreset colorPreset : String) (fontSize : Option ℤ)
    (sw so : ℤ) (mwf : ℚ) (cpos : Option (ℚ × ℚ)) (ccol : Option ColorScheme)
    (gpos : String) (gop gfrac : ℚ) :
    ((addText p dir img text position fontPreset colorPreset fontSize sw so mwf cpos ccol).width
        = img.width
      ∧ (addText p dir img text position fontPreset colorPreset fontSize sw so mwf cpos ccol).height
        = img.height
      ∧ ∀ x y,
        ((addText p dir img text position fontPreset colorPreset fontSize sw so mwf cpos ccol).px x y).a
          = 255)
    ∧ ((addGradient img gpos gop gfrac).width = img.width
      ∧ (addGradient img gpos gop gfrac).height = img.height
      ∧ ∀ x y, ((addGradient img gpos gop gfrac).px x y).a = 255) :=
  ⟨⟨rfl, rfl, fun _ _ => rfl⟩, ⟨rfl, rfl, fun _ _ => rfl⟩⟩

/-- C3 (confirmed): with empty text no glyph pass paints anything
(given the Pillow fact that drawing `""` is a no-op), so the output is the
input image re-flattened: same dimensions, every pixel's RGB channels
unchanged. -/
theorem c3_empty_text_noop {F : Type} (p : RenderPrims F) (dir : String) (img : Img)
    (position fontPreset colorPreset : String) (fontSize : Option ℤ)
    (sw so : ℤ) (mwf : ℚ) (cpos : Option (ℚ × ℚ)) (ccol : Option ColorScheme)
    (hdraw : ∀ (im : Img) (pos : ℤ × ℤ) (f : F) (col : RGBA),
      p.drawText im pos "" f col = im) :
    (addText p dir img "" position fontPreset colorPreset fontSize sw so mwf cpos ccol).width
        = img.width
    ∧ (addText p dir img "" position fontPreset colorPreset fontSize sw so mwf cpos ccol).height
        = img.height
    ∧ ∀ x y, (addText p dir img "" position fontPreset colorPreset fontSize sw so mwf cpos ccol).px x y
        = ⟨(img.px x y).r, (img.px x y).g, (img.px x y).b, 255⟩ := by
  have hml : (("" : String).contains '\n') = false := by with_unfolding_all decide
  have key : addText p dir img "" position fontPreset colorPreset fontSize sw so mwf cpos ccol
      = convertRGB (alphaComposite img (transparentImg img.width img.height)) := by
    simp only [addText, wrapText_empty]
    split_ifs
    · simp only [hml]
      rw [composePasses_empty _ _ _ _ _ _ _ _ _ _ hdraw]
    · simp only [hml]
      rw [composePasses_empty _ _ _ _ _ _ _ _ _ _ hdraw]
  refine ⟨?_, ?_, ?_⟩
  · rw [key]; rfl
  · rw [key]; rfl
  · intro x y
    rw [key]
    rfl

/-- C8 counterexample: a negative explicit font size is not rejected:
`add_text` runs to completion, the resolver's blanket exception handling
falls back to `ImageFont.load_default()`, and a normally-sized image is
returned (no error path exists in the embedded code for configuration
values). -/
theorem c8_invalid_size_counterexample :
    getFont demoPrims "fonts" "impact" (-5) = "PIL-default-bitmap-font"
    ∧ (addText demoPrims "fonts" demoImg "HI" "bottom_center" "impact" "white_shadow"
        (some (-5)) 4 5 fl09 none none).width = 3
    ∧ (addText demoPrims "fonts" demoImg "HI" "bottom_center" "impact" "white_shadow"
        (some (-5)) 4 5 fl09 none none).height = 2 :=
  ⟨by with_unfolding_all decide, rfl, rfl⟩

/-- C8 (amended): `add_text` performs no configuration validation: for
any size at which every font load fails (as FreeType does for nonpositive
sizes), `_get_font` silently falls back to the guaranteed built-in default
face and the call completes normally, returning a full-size image instead
of an error. -/
theorem c8_invalid_size_not_rejected {F : Type} (p : RenderPrims F) (dir preset : String)
    (size : ℤ) (img : Img) (text position fontPreset colorPreset : String)
    (sw so : ℤ) (mwf : ℚ) (cpos : Option (ℚ × ℚ)) (ccol : Option ColorScheme)
    (hfile : ∀ path s, s ≤ 0 → p.loadFile path s = none)
    (hsys : ∀ name s, s ≤ 0 → p.loadSystem name s = none)
    (hsize : size ≤ 0) :
    getFont p dir preset size = p.defaultFont
    ∧ (addText p dir img text position fontPreset colorPreset (some size) sw so mwf cpos ccol).width
        = img.width
    ∧ (addText p dir img text position fontPreset colorPreset (some size) sw so mwf cpos ccol).height
        = img.height := by
  refine ⟨?_, rfl, rfl⟩
  simp only [getFont]
  rw [getFontLoop_none p dir size (fun path => hfile path size hsize)
    (fun name => hsys name size hsize) _]
  rw [hsys _ _ hsize]

/-- Witness for the amended C8 with the demo primitives at size −7. -/
theorem c8_invalid_size_not_rejected_witness :
    getFont demoPrims "fonts" "modern" (-7) = demoPrims.defaultFont
    ∧ (addText demoPrims "fonts" demoImg "YO" "center" "modern" "yellow_pop"
        (some (-7)) 4 5 fl09 none none).width = demoImg.width
    ∧ (addText demoPrims "fonts" demoImg "YO" "center" "modern" "yellow_pop"
        (some (-7)) 4 5 fl09 none none).height = demoImg.height := by
  apply c8_invalid_size_not_rejected
  · intro path s hs
    show (if 0 < s then some path else none) = none
    rw [if_neg (by omega)]
  · intro name s hs
    show (if 0 < s then some name else none) = none
    rw [if_neg (by omega)]
  · omega

/-- C10 (confirmed): `add_multiple_texts` forwards only seven keys of
each per-text config to `add_text`; two batches whose configs agree on
those keys — hence differ at most in `stroke_width`, `shadow_offset`,
`max_width_ratio` — produce identical outputs, the fixed defaults 4, 5
and 0.9 being used for every pass. -/
theorem c10_batch_ignores_stroke_keys {F : Type} (p : RenderPrims F) (dir : String)
    (img : Img) (t1 t2 : List TextConfig) (hagree : List.Forall₂ sameForwarded t1 t2) :
    addMultipleTexts p dir img t1 = addMultipleTexts p dir img t2 := by
  induction hagree generalizing img with
  | nil => rfl
  | cons hpair htail ih =>
    obtain ⟨e1, e2, e3, e4, e5, e6, e7⟩ := hpair
    unfold addMultipleTexts
    simp only [List.foldl_cons]
    rw [e1, e2, e3, e4, e5, e6, e7]
    exact ih _

/-- Witness for C10: two singleton batches differing only in
`stroke_width`, `shadow_offset` and `max_width_ratio`. -/
theorem c10_batch_ignores_stroke_keys_witness :
    addMultipleTexts demoPrims "fonts" demoImg
        [⟨some "GO", some "center", none, none, none, none, none, some 9, some 2, some (1 / 2)⟩]
      = addMultipleTexts demoPrims "fonts" demoImg
        [⟨some "GO", some "center", none, none, none, none, none, some 0, some 11, some (1 / 4)⟩] := by
  apply c10_batch_ignores_stroke_keys
  exact List.Forall₂.cons ⟨rfl, rfl, rfl, rfl, rfl, rfl, rfl⟩ List.Forall₂.nil

/-- Witness for C3 with the demo primitives (pixel (1,0) of the demo
image survives an empty-text overlay pass unchanged, flattened opaque). -/
theorem c3_empty_text_noop_witness :
    (∀ (im : Img) (pos : ℤ × ℤ) (f : String) (col : RGBA),
        demoPrims.drawText im pos "" f col = im)
    ∧ (addText demoPrims "fonts" demoImg "" "bottom_center" "impact" "white_shadow"
        none 4 5 fl09 none none).px 1 0
        = ⟨(demoImg.px 1 0).r, (demoImg.px 1 0).g, (demoImg.px 1 0).b, 255⟩ := by
  have hdraw : ∀ (im : Img) (pos : ℤ × ℤ) (f : String) (col : RGBA),
      demoPrims.drawText im pos "" f col = im := by
    intro im pos f col
    show (if ("" : String) = "" then im else putpixel im pos.1.toNat pos.2.toNat col) = im
    rw [if_pos rfl]
  exact ⟨hdraw, (c3_empty_text_noop demoPrims "fonts" demoImg "bottom_center" "impact"
    "white_shadow" none 4 5 fl09 none none hdraw).2.2 1 0⟩
